import Mathlib

set_option maxRecDepth 8000

/-!
Verification of ParamPassTiming (src/ParamPassTiming.cpp).

Shallow embedding conventions:
* `size_t` values are `Nat` with arithmetic reduced modulo `wordMod = 2 ^ 64`
  wherever the C++ unsigned arithmetic can wrap.
* signed duration values (`std::chrono::milliseconds`) are `Int`.
* `std::array` / `std::vector` contents are `List`.
* recursions that the C++ side bounds by the machine word width are written
  with an explicit fuel of 64 (the bit width of `size_t`) so that every
  definition is executable by the kernel.
-/

/-- Modulus of `size_t` arithmetic (64-bit platforms, per the source's use of
`uint64_t` and `sizeof(size_t) * CHAR_BIT`).  Written with `Nat.pow` so the
kernel evaluates it as a literal. -/
def wordMod : Nat := Nat.pow 2 64

/-- `kMaxArraySizex2` from the source: must be a power of 2; evaluation runs
through `kMaxArraySizex2 / 2`. -/
def kMaxArraySizex2 : Nat := 4096

/-- `kValuesToSumMax` from the source. -/
def kValuesToSumMax : Nat := 4

/-- `kSlots` from the source: size of the global work buffer `gWork`. -/
def kSlots : Nat := 16

/-- `kTotalRuns` in the release configuration (`#else` branch). -/
def kTotalRuns : Nat := 31

/-- `kTotalRuns` in the `_DEBUG` configuration. -/
def kTotalRunsDebug : Nat := 3

/-- `Exp2` from the source: `size_t(1) << exponent` in `size_t` arithmetic.
The source asserts `exponent < sizeof(size_t) * CHAR_BIT`. -/
def Exp2 (exponent : Nat) : Nat := (1 <<< exponent) % wordMod

/-- The loop of `Log2`: `while (powerOf2 >>= 1) ++result;`.  Each iteration
shifts right by one and counts; the fuel of 64 covers every `size_t` value. -/
def log2Go : Nat → Nat → Nat → Nat
  | 0, _, result => result
  | fuel + 1, powerOf2, result =>
    let q := powerOf2 >>> 1
    if q = 0 then result else log2Go fuel q (result + 1)

/-- `Log2` from the source.  The source asserts `std::has_single_bit(powerOf2)`. -/
def Log2 (powerOf2 : Nat) : Nat := log2Go 64 powerOf2 0

/-- `kCountOfElemSizesToEval = Log2(sizeof(uint64_t)) + 1` from the source. -/
def kCountOfElemSizesToEval : Nat := Log2 8 + 1

/-- `kCountOfArraySizesToEval = Log2(kMaxArraySizex2)` from the source. -/
def kCountOfArraySizesToEval : Nat := Log2 kMaxArraySizex2

theorem Exp2_eq_pow : ∀ k, k < 64 → Exp2 k = 2 ^ k := by
  intro k hk
  show (1 <<< k) % wordMod = 2 ^ k
  rw [Nat.one_shiftLeft]
  exact Nat.mod_eq_of_lt
    (lt_of_lt_of_eq (pow_lt_pow_right₀ (by norm_num) hk) (by decide))

/-- One step of the `FauxRand` recurrence:
`next_ = next_ * 214013 + 2531011` in `size_t` arithmetic. -/
def fauxStep (next : Nat) : Nat := (next * 214013 + 2531011) % wordMod

/-- The state of the `FauxRand` generator: the single member `next_`. -/
structure FauxRand where
  next_ : Nat

/-- `FauxRand::Seed`: overwrite the state with the given seed. -/
def FauxRand.Seed (_ : FauxRand) (seed : Nat) : FauxRand := ⟨seed⟩

/-- `FauxRand::operator()`: advance the state by one recurrence step and
return the new value of `next_`. -/
def FauxRand.call (r : FauxRand) : Nat × FauxRand :=
  let n := fauxStep r.next_
  (n, ⟨n⟩)

/-- `n` successive calls of `FauxRand::operator()`, listing the returned
values in order. -/
def FauxRand.run (r : FauxRand) : Nat → List Nat
  | 0 => []
  | n + 1 =>
    let (x, r1) := r.call
    x :: r1.run n

/-- `std::ranges::nth_element` on a list, returning the element that ends up
at position `n`: a quickselect realising the standard's postcondition (the
element at the nth position is the one a full sort would put there, after a
partial reordering).  The fuel starts at the list length, which the
recursion (into strict sublists of the tail) never exhausts. -/
def nthElementGo : Nat → Nat → List Int → Int
  | _, _, [] => 0
  | 0, _, p :: _ => p
  | fuel + 1, n, p :: rest =>
    let lt := rest.filter (fun x => decide (x < p))
    let ge := rest.filter (fun x => !decide (x < p))
    if n < lt.length then nthElementGo fuel n lt
    else if n = lt.length then p
    else nthElementGo fuel (n - (lt.length + 1)) ge

/-- The value `*mid` after `std::ranges::nth_element(c, mid)` with
`mid = begin + n`. -/
def nthElement (n : Nat) (c : List Int) : Int := nthElementGo c.length n c

/-- `GetMedian` from the source: `nth_element` at `mid = begin + size/2`,
then return `*mid`.  The source asserts `size(c) % 2 == 1`. -/
def GetMedian (c : List Int) : Int := nthElement (c.length / 2) c

/-- Full ascending sort of a duration list (the reference the spec compares
`GetMedian` against). -/
def sortAsc (c : List Int) : List Int := List.insertionSort (fun a b => a ≤ b) c

theorem sortAsc_perm (c : List Int) : List.Perm (sortAsc c) c :=
  List.perm_insertionSort _ c

theorem sortAsc_sorted (c : List Int) : List.Sorted (fun a b : Int => a ≤ b) (sortAsc c) :=
  List.sorted_insertionSort _ c

theorem sortAsc_length (c : List Int) : (sortAsc c).length = c.length :=
  (sortAsc_perm c).length_eq

/-- Partition identity: sorting `p :: rest` is sorting the strictly-smaller
part, then `p`, then sorting the rest. -/
theorem sortAsc_cons_split (p : Int) (rest : List Int) :
    sortAsc (p :: rest) =
      sortAsc (rest.filter (fun x => decide (x < p))) ++
        p :: sortAsc (rest.filter (fun x => !decide (x < p))) := by
  have hperm : List.Perm (sortAsc (p :: rest))
      (sortAsc (rest.filter (fun x => decide (x < p))) ++
        p :: sortAsc (rest.filter (fun x => !decide (x < p)))) := by
    refine (sortAsc_perm _).trans ?_
    refine (List.Perm.cons p
      (List.filter_append_perm (fun x => decide (x < p)) rest)).symm.trans ?_
    refine List.perm_middle.symm.trans ?_
    exact ((sortAsc_perm _).append (List.Perm.cons p (sortAsc_perm _))).symm
  have hs1 : List.Sorted (fun a b : Int => a ≤ b) (sortAsc (p :: rest)) :=
    sortAsc_sorted _
  have hs2 : List.Sorted (fun a b : Int => a ≤ b)
      (sortAsc (rest.filter (fun x => decide (x < p))) ++
        p :: sortAsc (rest.filter (fun x => !decide (x < p)))) := by
    rw [List.Sorted, List.pairwise_append]
    refine ⟨sortAsc_sorted _, ?_, ?_⟩
    · rw [List.pairwise_cons]
      refine ⟨?_, sortAsc_sorted _⟩
      intro b hb
      have hb2 := (sortAsc_perm _).mem_iff.mp hb
      have := (List.mem_filter.mp hb2).2
      simpa using this
    · intro a ha b hb
      have ha2 := (sortAsc_perm _).mem_iff.mp ha
      have halt : a < p := by simpa using (List.mem_filter.mp ha2).2
      rcases List.mem_cons.mp hb with hbp | hb2
      · exact le_of_lt (hbp ▸ halt)
      · have hb3 := (sortAsc_perm _).mem_iff.mp hb2
        have : ¬ b < p := by simpa using (List.mem_filter.mp hb3).2
        exact le_of_lt (lt_of_lt_of_le halt (not_lt.mp this))
  exact List.eq_of_perm_of_sorted hperm hs1 hs2

theorem nthElementGo_eq_sorted :
    ∀ (fuel : Nat) (c : List Int) (n : Nat), c.length ≤ fuel → n < c.length →
      nthElementGo fuel n c = (sortAsc c).getD n 0 := by
  intro fuel
  induction fuel with
  | zero =>
    intro c n hf hn
    cases c with
    | nil => simp at hn
    | cons p rest => simp at hf
  | succ fuel ih =>
    intro c n hf hn
    match c with
    | [] => simp at hn
    | p :: rest =>
      have hsplit := sortAsc_cons_split p rest
      set lt := rest.filter (fun x => decide (x < p)) with hltdef
      set ge := rest.filter (fun x => !decide (x < p)) with hgedef
      have hltlen : lt.length ≤ rest.length := List.length_filter_le _ _
      have hgelen : ge.length ≤ rest.length := List.length_filter_le _ _
      have hrest : rest.length ≤ fuel := Nat.le_of_succ_le_succ hf
      have hparts : lt.length + ge.length = rest.length := by
        have := (List.filter_append_perm (fun x => decide (x < p)) rest).length_eq
        simpa using this
      rw [hsplit]
      show (if n < lt.length then nthElementGo fuel n lt
        else if n = lt.length then p
        else nthElementGo fuel (n - (lt.length + 1)) ge) = _
      by_cases h1 : n < lt.length
      · rw [if_pos h1, ih lt n (le_trans hltlen hrest) h1]
        rw [List.getD_eq_getElem?_getD, List.getD_eq_getElem?_getD,
          List.getElem?_append_left (by rw [sortAsc_length]; exact h1)]
      · rw [if_neg h1]
        by_cases h2 : n = lt.length
        · rw [if_pos h2, List.getD_eq_getElem?_getD,
            List.getElem?_append_right (by rw [sortAsc_length]; exact le_of_eq h2.symm)]
          rw [sortAsc_length, h2, Nat.sub_self]
          simp
        · rw [if_neg h2]
          have h3 : lt.length < n := lt_of_le_of_ne (not_lt.mp h1) (Ne.symm h2)
          have hidx : n - (lt.length + 1) < ge.length := by
            have hn2 : n < rest.length + 1 := by simpa using hn
            omega
          rw [ih ge (n - (lt.length + 1)) (le_trans hgelen hrest) hidx]
          rw [List.getD_eq_getElem?_getD, List.getD_eq_getElem?_getD,
            List.getElem?_append_right (by rw [sortAsc_length]; omega)]
          rw [sortAsc_length]
          have hshift : n - lt.length = (n - (lt.length + 1)) + 1 := by omega
          rw [hshift]
          simp

/-- C1: for every odd-length collection of durations, `GetMedian` returns
exactly the value at the middle position (index `length / 2`) of the fully
ascending-sorted collection, even though `nth_element` only partially
reorders the collection. -/
theorem GetMedian_eq_sorted_middle (c : List Int) (h : c.length % 2 = 1) :
    GetMedian c = (sortAsc c).getD (c.length / 2) 0 := by
  have hpos : 0 < c.length := by
    rcases Nat.eq_zero_or_pos c.length with h0 | h0
    · rw [h0] at h; simp at h
    · exact h0
  exact nthElementGo_eq_sorted c.length c (c.length / 2) le_rfl
    (Nat.div_lt_self hpos (by norm_num))

/-- Witness for C1 at the concrete collection `[3, 1, 2]`. -/
theorem GetMedian_eq_sorted_middle_witness :
    ([3, 1, 2] : List Int).length % 2 = 1 ∧
      GetMedian [3, 1, 2] =
        (sortAsc [3, 1, 2]).getD (([3, 1, 2] : List Int).length / 2) 0 :=
  ⟨by decide, GetMedian_eq_sorted_middle [3, 1, 2] (by decide)⟩

/-- `RandomWork` from the source, acting on the generator state and the
global work buffer `gWork`: draw a slot (`rnd() % kSlots`), draw a value,
and add `random ^ (random << 1)` (in `size_t` arithmetic) into that slot. -/
def RandomWork (r : FauxRand) (gWork : List Nat) : FauxRand × List Nat :=
  let (s, r1) := r.call
  let slot := s % kSlots
  let (random, r2) := r1.call
  let derived := random ^^^ ((random <<< 1) % wordMod)
  (r2, gWork.set slot ((gWork.getD slot 0 + derived) % wordMod))

/-- `RandArray::ComputeValue`'s loop: `numValuesToSum` iterations, each
drawing `rnd() % N` and adding the element there (widened to `size_t`)
into the running sum.  `arr` holds the container's element values. -/
def computeValueLoop (arr : List Nat) : Nat → FauxRand → Nat → Nat × FauxRand
  | 0, r, sum => (sum, r)
  | i + 1, r, sum =>
    let (x, r1) := r.call
    let slot := x % arr.length
    computeValueLoop arr i r1 ((sum + arr.getD slot 0) % wordMod)

/-- `RandArray::ComputeValue` from the source: draw
`numValuesToSum = rnd() % kValuesToSumMax`, then run the summation loop. -/
def ComputeValue (arr : List Nat) (r : FauxRand) : Nat × FauxRand :=
  let (x, r1) := r.call
  computeValueLoop arr (x % kValuesToSumMax) r1 0

/-- The value of `next_` after `k` recurrence steps starting from `s`
(the `k`-th iterate of the `FauxRand` recurrence). -/
def fauxIter (s : Nat) : Nat → Nat
  | 0 => s
  | k + 1 => fauxStep (fauxIter s k)

theorem fauxIter_succ (s k : Nat) : fauxIter s (k + 1) = fauxStep (fauxIter s k) := by
  simp only [fauxIter]

theorem fauxIter_shift (k s : Nat) : fauxIter (fauxStep s) k = fauxIter s (k + 1) := by
  induction k with
  | zero => simp only [fauxIter]
  | succ k ih => rw [fauxIter_succ, fauxIter_succ, ih]

theorem FauxRand_run_succ (s n : Nat) :
    (FauxRand.mk s).run (n + 1) = fauxStep s :: (FauxRand.mk (fauxStep s)).run n := rfl

theorem FauxRand_run_getD (n : Nat) :
    ∀ (s k : Nat), k < n →
      ((FauxRand.mk s).run n).getD k 0 = fauxIter s (k + 1) := by
  induction n with
  | zero => intro s k hk; exact absurd hk (Nat.not_lt_zero k)
  | succ n ih =>
    intro s k hk
    cases k with
    | zero => rw [FauxRand_run_succ, List.getD_cons_zero]; simp only [fauxIter]
    | succ k =>
      have h2 := ih (fauxStep s) k (Nat.lt_of_succ_lt_succ hk)
      rw [FauxRand_run_succ, List.getD_cons_succ, h2]
      exact fauxIter_shift (k + 1) s

/-- C3: the generator is deterministic.  After `Seed(S)`, the `k`-th call of
`operator()` returns the `k`-th iterate of `next = next * 214013 + 2531011`
(mod `2^64`) starting from `S`; and re-seeding to the same value reproduces
an identical output sequence regardless of the prior generator state. -/
theorem FauxRand_deterministic (r₁ r₂ : FauxRand) (S n k : Nat) (hk : k < n) :
    ((r₁.Seed S).run n).getD k 0 = fauxIter S (k + 1) ∧
      (r₁.Seed S).run n = (r₂.Seed S).run n :=
  ⟨FauxRand_run_getD n S k hk, rfl⟩

/-- Witness for C3 at seed 42, three calls, second output. -/
theorem FauxRand_deterministic_witness :
    1 < 3 ∧
      (((FauxRand.mk 0).Seed 42).run 3).getD 1 0 = fauxIter 42 (1 + 1) ∧
        ((FauxRand.mk 0).Seed 42).run 3 = ((FauxRand.mk 99).Seed 42).run 3 :=
  ⟨by decide, FauxRand_deterministic (FauxRand.mk 0) (FauxRand.mk 99) 42 3 1 (by decide)⟩

/-- C4: `RandomWork` draws a slot index first and a value second, adds
`v ^ (v << 1)` into the work buffer at that slot, leaves every other slot
unchanged, and advances the generator by exactly two draws. -/
theorem RandomWork_spec (r : FauxRand) (w : List Nat) (hw : w.length = kSlots) :
    (RandomWork r w).1.next_ = fauxIter r.next_ 2 ∧
      ((RandomWork r w).2).getD (fauxStep r.next_ % kSlots) 0 =
        (w.getD (fauxStep r.next_ % kSlots) 0 +
          (fauxIter r.next_ 2 ^^^ ((fauxIter r.next_ 2 <<< 1) % wordMod))) % wordMod ∧
      ∀ i, i ≠ fauxStep r.next_ % kSlots →
        ((RandomWork r w).2).getD i 0 = w.getD i 0 := by
  have hslot : fauxStep r.next_ % kSlots < w.length := by
    rw [hw]
    exact Nat.mod_lt _ (by decide)
  have hunf : RandomWork r w =
      (FauxRand.mk (fauxStep (fauxStep r.next_)),
        w.set (fauxStep r.next_ % kSlots)
          ((w.getD (fauxStep r.next_ % kSlots) 0 +
            (fauxStep (fauxStep r.next_) ^^^
              ((fauxStep (fauxStep r.next_) <<< 1) % wordMod))) % wordMod)) := rfl
  refine ⟨?_, ?_, ?_⟩
  · rw [hunf]
    simp only [fauxIter]
  · rw [hunf, List.getD_eq_getElem?_getD, List.getElem?_set_self hslot,
      Option.getD_some]
    simp only [fauxIter]
  · intro i hi
    rw [hunf, List.getD_eq_getElem?_getD, List.getElem?_set_ne (Ne.symm hi)]
    exact (List.getD_eq_getElem?_getD w i 0).symm

/-- Witness for C4 at a zeroed generator and a zeroed 16-slot work buffer. -/
theorem RandomWork_spec_witness :
    (List.replicate 16 0).length = kSlots ∧
      ((RandomWork (FauxRand.mk 0) (List.replicate 16 0)).1.next_ =
          fauxIter (FauxRand.mk 0).next_ 2 ∧
        ((RandomWork (FauxRand.mk 0) (List.replicate 16 0)).2).getD
            (fauxStep (FauxRand.mk 0).next_ % kSlots) 0 =
          ((List.replicate 16 0).getD (fauxStep (FauxRand.mk 0).next_ % kSlots) 0 +
            (fauxIter (FauxRand.mk 0).next_ 2 ^^^
              ((fauxIter (FauxRand.mk 0).next_ 2 <<< 1) % wordMod))) % wordMod ∧
        ∀ i, i ≠ fauxStep (FauxRand.mk 0).next_ % kSlots →
          ((RandomWork (FauxRand.mk 0) (List.replicate 16 0)).2).getD i 0 =
            (List.replicate 16 0).getD i 0) :=
  ⟨by decide, RandomWork_spec (FauxRand.mk 0) (List.replicate 16 0) (by decide)⟩

theorem FauxRand_next_mk (x : Nat) : (FauxRand.mk x).next_ = x := rfl

theorem computeValueLoop_spec (arr : List Nat) :
    ∀ (k : Nat) (r : FauxRand) (sum : Nat),
      (computeValueLoop arr k r sum).2.next_ = fauxIter r.next_ k ∧
        (computeValueLoop arr k r sum).1 =
          (List.range k).foldl
            (fun s i => (s + arr.getD (fauxIter r.next_ (i + 1) % arr.length) 0) % wordMod)
            sum := by
  intro k
  induction k with
  | zero =>
    intro r sum
    refine ⟨?_, ?_⟩
    · simp only [computeValueLoop, fauxIter]
    · simp only [computeValueLoop, List.range_zero, List.foldl_nil]
  | succ k ih =>
    intro r sum
    have hunf : computeValueLoop arr (k + 1) r sum =
        computeValueLoop arr k (FauxRand.mk (fauxStep r.next_))
          ((sum + arr.getD (fauxStep r.next_ % arr.length) 0) % wordMod) := rfl
    obtain ⟨ihstate, ihsum⟩ := ih (FauxRand.mk (fauxStep r.next_))
      ((sum + arr.getD (fauxStep r.next_ % arr.length) 0) % wordMod)
    constructor
    · rw [hunf, ihstate, FauxRand_next_mk, fauxIter_shift]
    · rw [hunf, ihsum, FauxRand_next_mk, List.range_succ_eq_map, List.foldl_cons,
        List.foldl_map]
      have hinit : (sum + arr.getD (fauxIter r.next_ (0 + 1) % arr.length) 0) % wordMod =
          (sum + arr.getD (fauxStep r.next_ % arr.length) 0) % wordMod := by
        simp only [fauxIter]
      rw [hinit]
      apply List.foldl_ext
      intro a i hi
      rw [fauxIter_shift]

/-- C2: `ComputeValue` draws one count `c = rnd() % kValuesToSumMax` (so
`c < kValuesToSumMax = 4`, independently of the container length), then runs
exactly `c` iterations, each drawing a slot `rnd() % N` and adding the
element there (widened to `size_t`) into the returned sum; the generator
advances by exactly `c + 1` draws. -/
theorem ComputeValue_spec (arr : List Nat) (r : FauxRand) :
    fauxStep r.next_ % kValuesToSumMax < kValuesToSumMax ∧
      (ComputeValue arr r).2.next_ =
        fauxIter r.next_ (fauxStep r.next_ % kValuesToSumMax + 1) ∧
      (ComputeValue arr r).1 =
        (List.range (fauxStep r.next_ % kValuesToSumMax)).foldl
          (fun s i => (s + arr.getD (fauxIter r.next_ (i + 2) % arr.length) 0) % wordMod)
          0 := by
  have hunf : ComputeValue arr r =
      computeValueLoop arr (fauxStep r.next_ % kValuesToSumMax)
        (FauxRand.mk (fauxStep r.next_)) 0 := rfl
  obtain ⟨hstate, hsum⟩ := computeValueLoop_spec arr
    (fauxStep r.next_ % kValuesToSumMax) (FauxRand.mk (fauxStep r.next_)) 0
  refine ⟨Nat.mod_lt _ (by decide), ?_, ?_⟩
  · rw [hunf, hstate, FauxRand_next_mk, fauxIter_shift]
  · rw [hunf, hsum, FauxRand_next_mk]
    apply List.foldl_ext
    intro a i hi
    rw [fauxIter_shift]

/-- `RandomWork` with its work-buffer access made explicit: `none` exactly
when the drawn slot would be out of range for the buffer. -/
def RandomWorkChecked (r : FauxRand) (gWork : List Nat) :
    Option (FauxRand × List Nat) :=
  let (s, r1) := r.call
  let slot := s % kSlots
  (gWork[slot]?).bind fun cur =>
    let (random, r2) := r1.call
    let derived := random ^^^ ((random <<< 1) % wordMod)
    some (r2, gWork.set slot ((cur + derived) % wordMod))

/-- The `ComputeValue` loop with its container accesses made explicit:
`none` exactly when a drawn slot would be out of range. -/
def computeValueLoopChecked (arr : List Nat) :
    Nat → FauxRand → Nat → Option (Nat × FauxRand)
  | 0, r, sum => some (sum, r)
  | i + 1, r, sum =>
    let (x, r1) := r.call
    let slot := x % arr.length
    (arr[slot]?).bind fun v =>
      computeValueLoopChecked arr i r1 ((sum + v) % wordMod)

/-- `ComputeValue` with checked container accesses. -/
def ComputeValueChecked (arr : List Nat) (r : FauxRand) :
    Option (Nat × FauxRand) :=
  let (x, r1) := r.call
  computeValueLoopChecked arr (x % kValuesToSumMax) r1 0

theorem getElem?_eq_some_getD (l : List Nat) (i : Nat) (h : i < l.length) :
    l[i]? = some (l.getD i 0) := by
  rw [List.getElem?_eq_getElem h, List.getD_eq_getElem?_getD,
    List.getElem?_eq_getElem h, Option.getD_some]

theorem computeValueLoopChecked_eq (arr : List Nat) (harr : arr ≠ []) :
    ∀ (k : Nat) (r : FauxRand) (sum : Nat),
      computeValueLoopChecked arr k r sum = some (computeValueLoop arr k r sum) := by
  have hlen : 0 < arr.length := List.length_pos.mpr harr
  intro k
  induction k with
  | zero => intro r sum; rfl
  | succ k ih =>
    intro r sum
    have hslot : fauxStep r.next_ % arr.length < arr.length := Nat.mod_lt _ hlen
    have hunfC : computeValueLoopChecked arr (k + 1) r sum =
        (arr[fauxStep r.next_ % arr.length]?).bind fun v =>
          computeValueLoopChecked arr k (FauxRand.mk (fauxStep r.next_))
            ((sum + v) % wordMod) := rfl
    have hunfU : computeValueLoop arr (k + 1) r sum =
        computeValueLoop arr k (FauxRand.mk (fauxStep r.next_))
          ((sum + arr.getD (fauxStep r.next_ % arr.length) 0) % wordMod) := rfl
    rw [hunfC, hunfU, getElem?_eq_some_getD arr _ hslot, Option.some_bind]
    exact ih (FauxRand.mk (fauxStep r.next_))
      ((sum + arr.getD (fauxStep r.next_ % arr.length) 0) % wordMod)

/-- C10: every array access through the public operations is in bounds for
every generator state: the checked variants (which fail on any out-of-range
index) agree with the unchecked embeddings whenever the work buffer has its
`kSlots` slots and the container is non-empty, because each index is reduced
`% kSlots` resp. `% N` before use. -/
theorem accesses_in_bounds (r : FauxRand) (w arr : List Nat)
    (hw : w.length = kSlots) (harr : arr ≠ []) :
    RandomWorkChecked r w = some (RandomWork r w) ∧
      ComputeValueChecked arr r = some (ComputeValue arr r) := by
  constructor
  · have hslot : fauxStep r.next_ % kSlots < w.length := by
      rw [hw]
      exact Nat.mod_lt _ (by decide)
    have hunfC : RandomWorkChecked r w =
        (w[fauxStep r.next_ % kSlots]?).bind fun cur =>
          some (FauxRand.mk (fauxStep (fauxStep r.next_)),
            w.set (fauxStep r.next_ % kSlots)
              ((cur + (fauxStep (fauxStep r.next_) ^^^
                ((fauxStep (fauxStep r.next_) <<< 1) % wordMod))) % wordMod)) := rfl
    have hunfU : RandomWork r w =
        (FauxRand.mk (fauxStep (fauxStep r.next_)),
          w.set (fauxStep r.next_ % kSlots)
            ((w.getD (fauxStep r.next_ % kSlots) 0 +
              (fauxStep (fauxStep r.next_) ^^^
                ((fauxStep (fauxStep r.next_) <<< 1) % wordMod))) % wordMod)) := rfl
    rw [hunfC, hunfU, getElem?_eq_some_getD w _ hslot, Option.some_bind]
  · have hunfC : ComputeValueChecked arr r =
        computeValueLoopChecked arr (fauxStep r.next_ % kValuesToSumMax)
          (FauxRand.mk (fauxStep r.next_)) 0 := rfl
    have hunfU : ComputeValue arr r =
        computeValueLoop arr (fauxStep r.next_ % kValuesToSumMax)
          (FauxRand.mk (fauxStep r.next_)) 0 := rfl
    rw [hunfC, hunfU]
    exact computeValueLoopChecked_eq arr harr _ _ _

/-- Witness for C10 at a zeroed generator, a zeroed 16-slot buffer and the
container `[7, 8, 9]`. -/
theorem accesses_in_bounds_witness :
    (List.replicate 16 0).length = kSlots ∧ ([7, 8, 9] : List Nat) ≠ [] ∧
      (RandomWorkChecked (FauxRand.mk 0) (List.replicate 16 0) =
          some (RandomWork (FauxRand.mk 0) (List.replicate 16 0)) ∧
        ComputeValueChecked [7, 8, 9] (FauxRand.mk 0) =
          some (ComputeValue [7, 8, 9] (FauxRand.mk 0))) :=
  ⟨by decide, by decide,
    accesses_in_bounds (FauxRand.mk 0) (List.replicate 16 0) [7, 8, 9]
      (by decide) (by decide)⟩

/-- `TimingData`'s three tables, indexed by element-size exponent and
array-size exponent; a cell holds the per-run duration samples
(`TimePerRun`, written per run index by `SetTimes`). -/
structure TimingData where
  baselines_ : Nat → Nat → List Int
  byRefs_ : Nat → Nat → List Int
  byVals_ : Nat → Nat → List Int

/-- One report line: header, array size, element size, adjusted duration
(`hdr << ", " << arrSize << ", " << elemSize << ", " << time - baseline`). -/
def TimingData.Output (td : TimingData) (c : Nat → Nat → List Int) (hdr : String) :
    List (String × Nat × Nat × Int) :=
  (List.range kCountOfElemSizesToEval).flatMap fun elemSizeIdx =>
    (List.range kCountOfArraySizesToEval).map fun arrSizeIdx =>
      (hdr, Exp2 arrSizeIdx, Exp2 elemSizeIdx,
        GetMedian (c elemSizeIdx arrSizeIdx) -
          GetMedian (td.baselines_ elemSizeIdx arrSizeIdx))

/-- `TimingData::OutputResults`: the "by ref" block, then the "by val" block. -/
def TimingData.OutputResults (td : TimingData) : List (String × Nat × Nat × Int) :=
  td.Output td.byRefs_ "by ref" ++ td.Output td.byVals_ "by val"

/-- The `(element size, array size)` coordinates of one report block, in
emission order. -/
def reportCoords : List (Nat × Nat) :=
  (List.range kCountOfElemSizesToEval).flatMap fun elemSizeIdx =>
    (List.range kCountOfArraySizesToEval).map fun arrSizeIdx =>
      (Exp2 elemSizeIdx, Exp2 arrSizeIdx)

/-- Strict lexicographic order on `(element size, array size)` coordinates. -/
def coordLexLt (c₁ c₂ : Nat × Nat) : Prop :=
  c₁.1 < c₂.1 ∨ (c₁.1 = c₂.1 ∧ c₁.2 < c₂.2)

instance : DecidableRel coordLexLt := fun c₁ c₂ => by
  unfold coordLexLt
  infer_instance

theorem Exp2_lt_Exp2 {e₁ e₂ : Nat} (h : e₁ < e₂) (h₂ : e₂ < 64) :
    Exp2 e₁ < Exp2 e₂ := by
  rw [Exp2_eq_pow e₁ (lt_trans h h₂), Exp2_eq_pow e₂ h₂]
  exact pow_lt_pow_right₀ (by norm_num) h

theorem coordLexLt_ne {c₁ c₂ : Nat × Nat} (h : coordLexLt c₁ c₂) : c₁ ≠ c₂ := by
  intro he
  subst he
  rcases h with h | ⟨_, h⟩
  · exact lt_irrefl _ h
  · exact lt_irrefl _ h

theorem reportCoords_pairwise : List.Pairwise coordLexLt reportCoords := by
  unfold reportCoords
  rw [List.pairwise_flatMap]
  constructor
  · intro e he
    rw [List.pairwise_map]
    refine List.Pairwise.imp_of_mem ?_ (List.pairwise_lt_range _)
    intro a b ha hb hab
    exact Or.inr ⟨rfl, Exp2_lt_Exp2 hab
      (lt_of_lt_of_le (List.mem_range.mp hb) (by decide))⟩
  · refine List.Pairwise.imp_of_mem ?_ (List.pairwise_lt_range _)
    intro e₁ e₂ he₁ he₂ h12
    intro x hx y hy
    rcases List.mem_map.mp hx with ⟨a, ha, rfl⟩
    rcases List.mem_map.mp hy with ⟨b, hb, rfl⟩
    exact Or.inl (Exp2_lt_Exp2 h12
      (lt_of_lt_of_le (List.mem_range.mp he₂) (by decide)))

theorem reportCoords_nodup : reportCoords.Nodup :=
  List.Pairwise.imp (fun h => coordLexLt_ne h) reportCoords_pairwise

theorem reportCoords_mem (e a : Nat) (he : e < kCountOfElemSizesToEval)
    (ha : a < kCountOfArraySizesToEval) : (Exp2 e, Exp2 a) ∈ reportCoords := by
  unfold reportCoords
  exact List.mem_flatMap.mpr ⟨e, List.mem_range.mpr he,
    List.mem_map.mpr ⟨a, List.mem_range.mpr ha, rfl⟩⟩

/-- C5: the report emits all "by ref" lines, then all "by val" lines; each
block walks element sizes in strictly ascending order and, within an element
size, array sizes in strictly ascending order, covering every coordinate of
the evaluated matrix exactly once; each line's duration is
`GetMedian(mode cell) - GetMedian(baseline cell)`. -/
theorem OutputResults_spec (td : TimingData) :
    td.OutputResults =
      ((List.range kCountOfElemSizesToEval).flatMap fun e =>
        (List.range kCountOfArraySizesToEval).map fun a =>
          ("by ref", Exp2 a, Exp2 e,
            GetMedian (td.byRefs_ e a) - GetMedian (td.baselines_ e a))) ++
      ((List.range kCountOfElemSizesToEval).flatMap fun e =>
        (List.range kCountOfArraySizesToEval).map fun a =>
          ("by val", Exp2 a, Exp2 e,
            GetMedian (td.byVals_ e a) - GetMedian (td.baselines_ e a))) ∧
      (td.Output td.byRefs_ "by ref").map (fun l => (l.2.2.1, l.2.1)) = reportCoords ∧
      (td.Output td.byVals_ "by val").map (fun l => (l.2.2.1, l.2.1)) = reportCoords ∧
      List.Pairwise coordLexLt reportCoords ∧
      (∀ e, e < kCountOfElemSizesToEval → ∀ a, a < kCountOfArraySizesToEval →
        (Exp2 e, Exp2 a) ∈ reportCoords) ∧
      reportCoords.Nodup := by
  refine ⟨rfl, ?_, ?_, reportCoords_pairwise,
    fun e he a ha => reportCoords_mem e a he ha, reportCoords_nodup⟩
  · simp only [TimingData.Output, reportCoords, List.map_flatMap, List.map_map,
      Function.comp_def]
  · simp only [TimingData.Output, reportCoords, List.map_flatMap, List.map_map,
      Function.comp_def]

/-- Timing data in which every measured mode sample (3) is below its
baseline sample (5), as can happen under system noise. -/
def tdNeg : TimingData :=
  ⟨fun _ _ => [5], fun _ _ => [3], fun _ _ => [3]⟩

/-- Counterexample to C6 as stated: the subtraction `time - baseline` is
signed and unclamped, so with baseline median 5 and mode median 3 the first
data line carries the negative duration `-2`. -/
theorem OutputResults_negative_line :
    ((tdNeg.OutputResults).getD 0 ("", 0, 0, 0)).2.2.2 = -2 ∧
      ((tdNeg.OutputResults).getD 0 ("", 0, 0, 0)).2.2.2 < 0 := by
  constructor
  · decide
  · decide

/-- C6 amended: each line's duration is the signed, unclamped difference
`GetMedian(mode cell) - GetMedian(baseline cell)`; it cannot wrap (the
duration type is signed), and every printed duration is non-negative
whenever each mode median is at least its baseline median — when a mode
median is below the baseline median the line is negative instead. -/
theorem OutputResults_nonneg_of_medians_le (td : TimingData)
    (h : ∀ e, e < kCountOfElemSizesToEval → ∀ a, a < kCountOfArraySizesToEval →
      GetMedian (td.baselines_ e a) ≤ GetMedian (td.byRefs_ e a) ∧
        GetMedian (td.baselines_ e a) ≤ GetMedian (td.byVals_ e a)) :
    ∀ l ∈ td.OutputResults, 0 ≤ l.2.2.2 := by
  intro l hl
  have hl2 : l ∈ td.Output td.byRefs_ "by ref" ++ td.Output td.byVals_ "by val" := hl
  rcases List.mem_append.mp hl2 with hm | hm
  · have hm2 : l ∈ (List.range kCountOfElemSizesToEval).flatMap fun e =>
        (List.range kCountOfArraySizesToEval).map fun a =>
          ("by ref", Exp2 a, Exp2 e,
            GetMedian (td.byRefs_ e a) - GetMedian (td.baselines_ e a)) := hm
    rcases List.mem_flatMap.mp hm2 with ⟨e, he, hm3⟩
    rcases List.mem_map.mp hm3 with ⟨a, ha, rfl⟩
    exact Int.sub_nonneg.mpr (h e (List.mem_range.mp he) a (List.mem_range.mp ha)).1
  · have hm2 : l ∈ (List.range kCountOfElemSizesToEval).flatMap fun e =>
        (List.range kCountOfArraySizesToEval).map fun a =>
          ("by val", Exp2 a, Exp2 e,
            GetMedian (td.byVals_ e a) - GetMedian (td.baselines_ e a)) := hm
    rcases List.mem_flatMap.mp hm2 with ⟨e, he, hm3⟩
    rcases List.mem_map.mp hm3 with ⟨a, ha, rfl⟩
    exact Int.sub_nonneg.mpr (h e (List.mem_range.mp he) a (List.mem_range.mp ha)).2

/-- Timing data with every baseline median below both mode medians. -/
def tdPos : TimingData :=
  ⟨fun _ _ => [1], fun _ _ => [2], fun _ _ => [3]⟩

/-- Witness for the amended C6 at `tdPos`. -/
theorem OutputResults_nonneg_witness :
    (∀ e, e < kCountOfElemSizesToEval → ∀ a, a < kCountOfArraySizesToEval →
      GetMedian (tdPos.baselines_ e a) ≤ GetMedian (tdPos.byRefs_ e a) ∧
        GetMedian (tdPos.baselines_ e a) ≤ GetMedian (tdPos.byVals_ e a)) ∧
      ∀ l ∈ tdPos.OutputResults, 0 ≤ l.2.2.2 :=
  ⟨fun e he a ha => ⟨(by decide : GetMedian [1] ≤ GetMedian [2]),
      (by decide : GetMedian [1] ≤ GetMedian [3])⟩,
    OutputResults_nonneg_of_medians_le tdPos
      (fun e he a ha => ⟨(by decide : GetMedian [1] ≤ GetMedian [2]),
        (by decide : GetMedian [1] ≤ GetMedian [3])⟩)⟩

/-- The `sizeof` of the four element types the driver evaluates
(`uint8_t`, `uint16_t`, `uint32_t`, `uint64_t`). -/
def elemSizesEvaluated : List Nat := [1, 2, 4, 8]

/-- The array sizes instantiated by the `EvalParamPassing` recursion:
doubling from `arrSize` until it equals `maxArrSize` (the base case).  The
fuel of 64 covers every `size_t` doubling chain. -/
def evalSizesGo : Nat → Nat → Nat → List Nat
  | 0, _, _ => []
  | fuel + 1, arrSize, maxArrSize =>
    if arrSize = maxArrSize then []
    else arrSize :: evalSizesGo fuel (arrSize * 2) maxArrSize

/-- The array sizes the driver evaluates: `1, 2, ..., kMaxArraySizex2 / 2`. -/
def evalSizes : List Nat := evalSizesGo 64 1 kMaxArraySizex2

/-- The `(elemSizeIdx, arrSizeIdx, run)` coordinates written by `SetTimes`
over the whole driver loop, in execution order: for each run, for each
element type, for each array size, one write at
`(Log2 sizeof(T), Log2 arraySize, run)` into each of the three tables. -/
def setTimesTrace (runs : Nat) : List (Nat × Nat × Nat) :=
  (List.range runs).flatMap fun run =>
    elemSizesEvaluated.flatMap fun elemSize =>
      evalSizes.map fun arrSize => (Log2 elemSize, Log2 arrSize, run)


/-- The per-run coordinate pairs `(Log2 sizeof(T), Log2 arraySize)`. -/
def coordPairs : List (Nat × Nat) :=
  elemSizesEvaluated.flatMap fun elemSize =>
    evalSizes.map fun arrSize => (Log2 elemSize, Log2 arrSize)

/-- Number of occurrences of `x` in a list (the multiplicity of a write
coordinate in a write trace). -/
def countOcc {α : Type} [DecidableEq α] (x : α) : List α → Nat
  | [] => 0
  | y :: l => (if y = x then 1 else 0) + countOcc x l

theorem countOcc_append {α : Type} [DecidableEq α] (x : α) (l₁ l₂ : List α) :
    countOcc x (l₁ ++ l₂) = countOcc x l₁ + countOcc x l₂ := by
  induction l₁ with
  | nil => simp only [List.nil_append, countOcc, Nat.zero_add]
  | cons y l ih =>
    show (if y = x then 1 else 0) + countOcc x (l ++ l₂) =
      ((if y = x then 1 else 0) + countOcc x l) + countOcc x l₂
    rw [ih, Nat.add_assoc]

theorem countOcc_eq_zero {α : Type} [DecidableEq α] (x : α) :
    ∀ l : List α, x ∉ l → countOcc x l = 0 := by
  intro l
  induction l with
  | nil => intro _; rfl
  | cons y l ih =>
    intro h
    have hy : ¬ y = x := by
      intro he
      exact h (by rw [he]; exact List.mem_cons_self x l)
    have ht : x ∉ l := fun hm => h (List.mem_cons_of_mem y hm)
    simp only [countOcc, if_neg hy, ih ht, Nat.zero_add]

theorem countOcc_eq_one {α : Type} [DecidableEq α] (x : α) :
    ∀ l : List α, l.Nodup → x ∈ l → countOcc x l = 1 := by
  intro l
  induction l with
  | nil => intro _ h; exact absurd h (List.not_mem_nil x)
  | cons y l ih =>
    intro hnd hmem
    rcases List.mem_cons.mp hmem with rfl | hx
    · have hnotin : x ∉ l := (List.nodup_cons.mp hnd).1
      show (if x = x then 1 else 0) + countOcc x l = 1
      rw [if_pos rfl, countOcc_eq_zero x l hnotin]
    · have hy : ¬ y = x := by
        intro he
        exact (List.nodup_cons.mp hnd).1 (he ▸ hx)
      show (if y = x then 1 else 0) + countOcc x l = 1
      rw [if_neg hy, ih (List.nodup_cons.mp hnd).2 hx, Nat.zero_add]

/-- The coordinate pairs written per run, written directly by index:
`coordPairs` with each `Log2` evaluated. -/
def indexPairs : List (Nat × Nat) :=
  (List.range kCountOfElemSizesToEval).flatMap fun e =>
    (List.range kCountOfArraySizesToEval).map fun a => (e, a)

theorem coordPairs_eq_indexPairs : coordPairs = indexPairs := by decide

theorem indexPairs_nodup : indexPairs.Nodup := by
  have h : List.Pairwise (fun p q : Nat × Nat => p ≠ q)
      ((List.range kCountOfElemSizesToEval).flatMap fun e =>
        (List.range kCountOfArraySizesToEval).map fun a => (e, a)) := by
    rw [List.pairwise_flatMap]
    constructor
    · intro e he
      rw [List.pairwise_map]
      refine List.Pairwise.imp_of_mem ?_ (List.pairwise_lt_range _)
      intro a b _ _ hab he2
      simp only [Prod.mk.injEq] at he2
      exact absurd he2.2 (Nat.ne_of_lt hab)
    · refine List.Pairwise.imp_of_mem ?_ (List.pairwise_lt_range _)
      intro e₁ e₂ _ _ h12 x hx y hy
      rcases List.mem_map.mp hx with ⟨a, _, rfl⟩
      rcases List.mem_map.mp hy with ⟨b, _, rfl⟩
      intro he2
      simp only [Prod.mk.injEq] at he2
      exact absurd he2.1 (Nat.ne_of_lt h12)
  exact h

theorem indexPairs_mem (e a : Nat) (he : e < kCountOfElemSizesToEval)
    (ha : a < kCountOfArraySizesToEval) : (e, a) ∈ indexPairs := by
  unfold indexPairs
  exact List.mem_flatMap.mpr ⟨e, List.mem_range.mpr he,
    List.mem_map.mpr ⟨a, List.mem_range.mpr ha, rfl⟩⟩

theorem coordPairs_count : ∀ e, e < kCountOfElemSizesToEval →
    ∀ a, a < kCountOfArraySizesToEval → countOcc (e, a) coordPairs = 1 := by
  intro e he a ha
  rw [coordPairs_eq_indexPairs]
  exact countOcc_eq_one (e, a) indexPairs indexPairs_nodup (indexPairs_mem e a he ha)

theorem setTimesTrace_inner (run : Nat) :
    (elemSizesEvaluated.flatMap fun elemSize =>
      evalSizes.map fun arrSize => (Log2 elemSize, Log2 arrSize, run)) =
      coordPairs.map fun p => (p.1, p.2, run) := by
  simp only [coordPairs, List.map_flatMap, List.map_map, Function.comp_def]

theorem setTimesTrace_third_lt (runs : Nat) :
    ∀ x ∈ setTimesTrace runs, x.2.2 < runs := by
  intro x hx
  rcases List.mem_flatMap.mp hx with ⟨run, hrun, hx2⟩
  rcases List.mem_flatMap.mp hx2 with ⟨w, hw, hx3⟩
  rcases List.mem_map.mp hx3 with ⟨L, hL, rfl⟩
  exact List.mem_range.mp hrun

theorem countOcc_map_third (run e a r : Nat) :
    ∀ l : List (Nat × Nat),
      countOcc (e, a, r) (l.map fun p => (p.1, p.2, run)) =
        if run = r then countOcc (e, a) l else 0 := by
  intro l
  induction l with
  | nil =>
    rcases Decidable.em (run = r) with h | h
    · rw [if_pos h]; rfl
    · rw [if_neg h]; rfl
  | cons p l ih =>
    obtain ⟨p1, p2⟩ := p
    rw [List.map_cons]
    simp only [countOcc, ih]
    rcases Decidable.em (run = r) with h | h
    · subst h
      rw [if_pos rfl, if_pos rfl]
      by_cases hp : (p1, p2) = (e, a)
      · have hp3 : ((p1, p2, run) : Nat × Nat × Nat) = (e, a, run) := by
          simp only [Prod.mk.injEq] at hp ⊢
          exact ⟨hp.1, hp.2, trivial⟩
        rw [if_pos hp3, if_pos hp]
      · have hp3 : ¬ ((p1, p2, run) : Nat × Nat × Nat) = (e, a, run) := by
          intro hq
          simp only [Prod.mk.injEq] at hq
          exact hp (by simp only [Prod.mk.injEq]; exact ⟨hq.1, hq.2.1⟩)
        rw [if_neg hp3, if_neg hp]
    · rw [if_neg h, if_neg (fun hq : ((p1, p2, run) : Nat × Nat × Nat) = (e, a, r) => by
        simp only [Prod.mk.injEq] at hq
        exact h hq.2.2), if_neg h]

theorem setTimesTrace_succ (runs : Nat) :
    setTimesTrace (runs + 1) = setTimesTrace runs ++
      (elemSizesEvaluated.flatMap fun elemSize =>
        evalSizes.map fun arrSize => (Log2 elemSize, Log2 arrSize, runs)) := by
  unfold setTimesTrace
  rw [List.range_succ, List.flatMap_append]
  simp only [List.flatMap_cons, List.flatMap_nil, List.append_nil]

/-- C7: over the whole driver loop, every cell coordinate
`(Log2 W, Log2 L, run)` — `W ∈ {1,2,4,8}` the element widths, `L` the powers
of two from 1 up to but excluding `kMaxArraySizex2`, `run < runs` — is
written by `SetTimes` exactly once into each of the three series: the table
is fully populated with no gaps and no overwrites before reporting begins. -/
theorem setTimesTrace_exactly_once (runs e a r : Nat)
    (he : e < kCountOfElemSizesToEval) (ha : a < kCountOfArraySizesToEval)
    (hr : r < runs) :
    countOcc (e, a, r) (setTimesTrace runs) = 1 := by
  induction runs with
  | zero => exact absurd hr (Nat.not_lt_zero r)
  | succ runs ih =>
    rw [setTimesTrace_succ, countOcc_append, setTimesTrace_inner runs,
      countOcc_map_third]
    rcases Nat.lt_succ_iff_lt_or_eq.mp hr with h | h
    · rw [ih h, if_neg (by omega)]
    · subst h
      have h0 : countOcc (e, a, r) (setTimesTrace r) = 0 :=
        countOcc_eq_zero _ _ fun hmem =>
          absurd (setTimesTrace_third_lt r _ hmem) (lt_irrefl r)
      rw [h0, if_pos rfl, coordPairs_count e he a ha]

/-- Witness for C7: one run, coordinate `(0, 0, 0)`. -/
theorem setTimesTrace_exactly_once_witness :
    (0 < kCountOfElemSizesToEval ∧ 0 < kCountOfArraySizesToEval ∧ 0 < 1) ∧
      countOcc (0, 0, 0) (setTimesTrace 1) = 1 :=
  ⟨⟨by decide, by decide, by decide⟩,
    setTimesTrace_exactly_once 1 0 0 0 (by decide) (by decide) (by decide)⟩

theorem log2Go_pow : ∀ (j fuel result : Nat), j < fuel →
    log2Go fuel (2 ^ j) result = result + j := by
  intro j
  induction j with
  | zero =>
    intro fuel result hf
    match fuel, hf with
    | f + 1, _ =>
      have h1 : (2 : Nat) ^ 0 >>> 1 = 0 := by decide
      simp only [log2Go]
      rw [h1, if_pos rfl]
      exact (Nat.add_zero result).symm
  | succ j ih =>
    intro fuel result hf
    match fuel, hf with
    | f + 1, hf =>
      have hj : j < f := Nat.lt_of_succ_lt_succ hf
      have hq : (2 : Nat) ^ (j + 1) >>> 1 = 2 ^ j := by
        show (2 : Nat) ^ (j + 1) / 2 = 2 ^ j
        rw [pow_succ, Nat.mul_div_cancel _ (by norm_num)]
      simp only [log2Go]
      rw [hq, if_neg (pow_pos (show (0 : Nat) < 2 by norm_num) j).ne',
        ih f (result + 1) hj]
      omega

theorem Log2_pow : ∀ j, j < 64 → Log2 (2 ^ j) = j := by
  intro j hj
  show log2Go 64 (2 ^ j) 0 = j
  rw [log2Go_pow j 64 0 hj, Nat.zero_add]

/-- C8: the programmer-error guards hold.  `kTotalRuns` is odd in both
configurations, so the `static_assert` in `main` passes; for an exponent
below the `size_t` bit width the assertion in `Exp2` holds and `Exp2`
returns `2 ^ exponent`; for a power-of-two argument (of a `size_t`) the
assertion in `Log2` holds and `Log2` returns its base-2 logarithm; and a
per-cell run array of length `kTotalRuns` satisfies `GetMedian`'s odd-length
assertion. -/
theorem assertion_guards (k j : Nat) (c : List Int)
    (hk : k < 64) (hj : j < 64) (hc : c.length = kTotalRuns) :
    kTotalRuns % 2 = 1 ∧ kTotalRunsDebug % 2 = 1 ∧
      Exp2 k = 2 ^ k ∧ Log2 (2 ^ j) = j ∧ c.length % 2 = 1 := by
  refine ⟨by decide, by decide, Exp2_eq_pow k hk, Log2_pow j hj, ?_⟩
  rw [hc]
  decide

/-- Witness for C8 at exponent 3, power `2 ^ 10`, and a 31-sample cell. -/
theorem assertion_guards_witness :
    (3 < 64 ∧ 10 < 64 ∧ (List.replicate 31 (0 : Int)).length = kTotalRuns) ∧
      (kTotalRuns % 2 = 1 ∧ kTotalRunsDebug % 2 = 1 ∧
        Exp2 3 = 2 ^ 3 ∧ Log2 (2 ^ 10) = 10 ∧
        (List.replicate 31 (0 : Int)).length % 2 = 1) :=
  ⟨⟨by decide, by decide, by decide⟩,
    assertion_guards 3 10 (List.replicate 31 0) (by decide) (by decide) (by decide)⟩

/-- `std::vector::push_back` on the accumulator vectors. -/
def pushBack (v : List Nat) (x : Nat) : List Nat := v ++ [x]

/-- `std::vector::front`. -/
def front (v : List Nat) : Nat := v.headD 0

/-- `static_cast<int>` of a `size_t` value: modular (two's-complement)
truncation to 32 bits, per C++20 signed conversion (4294967296 = 2^32,
2147483648 = 2^31). -/
def toInt32 (n : Nat) : Int :=
  if n % Nat.pow 2 32 < Nat.pow 2 31 then ((n % Nat.pow 2 32 : Nat) : Int)
  else ((n % Nat.pow 2 32 : Nat) : Int) - 4294967296

/-- An accumulator vector (`arrByRefSums` or `arrByValSums`) as built by the
driver: one `push_back` per timed trial, in trial order, of that trial's
running total (`sumOf` gives the total produced at each trial coordinate). -/
def sumsVector (sumOf : Nat × Nat × Nat → Nat) (runs : Nat) : List Nat :=
  List.foldl pushBack [] ((setTimesTrace runs).map sumOf)

/-- `main`'s return value:
`static_cast<int>(arrByValSums.front() + arrByRefSums.front())`, the
addition in `size_t` arithmetic. -/
def mainReturn (arrByValSums arrByRefSums : List Nat) : Int :=
  toInt32 ((front arrByValSums + front arrByRefSums) % wordMod)

theorem foldl_pushBack (l : List Nat) :
    ∀ acc, List.foldl pushBack acc l = acc ++ l := by
  induction l with
  | nil => intro acc; rw [List.foldl_nil, List.append_nil]
  | cons x l ih =>
    intro acc
    rw [List.foldl_cons, ih]
    simp only [pushBack, List.append_assoc, List.singleton_append]

theorem setTimesTrace_head (n : Nat) :
    ∃ rest, setTimesTrace (n + 1) = (0, 0, 0) :: rest := by
  simp only [setTimesTrace, List.range_succ_eq_map, List.flatMap_cons,
    elemSizesEvaluated]
  rw [show evalSizes = 1 :: evalSizesGo 63 2 kMaxArraySizex2 from by decide,
    List.map_cons, show Log2 1 = 0 from by decide, List.cons_append]
  exact ⟨_, rfl⟩

theorem sumsVector_front (sumOf : Nat × Nat × Nat → Nat) (runs : Nat)
    (h : 0 < runs) :
    front (sumsVector sumOf runs) = sumOf (0, 0, 0) := by
  match runs, h with
  | n + 1, _ =>
    obtain ⟨rest, hrest⟩ := setTimesTrace_head n
    simp only [sumsVector, front, foldl_pushBack, List.nil_append, hrest,
      List.map_cons, List.headD_cons]

theorem toInt32_mod_wordMod (n : Nat) : toInt32 (n % wordMod) = toInt32 n := by
  have hdvd : Nat.pow 2 32 ∣ wordMod := ⟨Nat.pow 2 32, by decide⟩
  have h : n % wordMod % Nat.pow 2 32 = n % Nat.pow 2 32 :=
    Nat.mod_mod_of_dvd n hdvd
  simp only [toInt32, h]

/-- C9: `main` returns the int truncation (low 32 bits, two's complement) of
the sum of the first element pushed into `arrByValSums` and the first
element pushed into `arrByRefSums` — the totals recorded during the very
first timed trial (run 0, `uint8_t`, array size 1, coordinate `(0,0,0)`); it
carries no status-code meaning. -/
theorem mainReturn_spec (valSum refSum : Nat × Nat × Nat → Nat) (runs : Nat)
    (h : 0 < runs) :
    mainReturn (sumsVector valSum runs) (sumsVector refSum runs) =
      toInt32 (valSum (0, 0, 0) + refSum (0, 0, 0)) := by
  simp only [mainReturn, sumsVector_front valSum runs h,
    sumsVector_front refSum runs h, toInt32_mod_wordMod]

/-- Witness for C9 with constant per-trial totals 7 and 5 over one run. -/
theorem mainReturn_spec_witness :
    0 < 1 ∧
      mainReturn (sumsVector (fun _ => 7) 1) (sumsVector (fun _ => 5) 1) =
        toInt32 ((fun _ : Nat × Nat × Nat => 7) (0, 0, 0) +
          (fun _ : Nat × Nat × Nat => 5) (0, 0, 0)) :=
  ⟨by decide, mainReturn_spec (fun _ => 7) (fun _ => 5) 1 (by decide)⟩
